import Mathlib

/-!
Verification of the MatX lazy operator/expression evaluation engine
against its specification.

The development shallowly embeds the operator-node abstraction
(`include/matx/operators/*.h`) and the host executor
(`include/matx/executors/host.h`): an operator node is a per-dimension
size list together with an element-access function on coordinate lists,
mirroring `Size(dim)` / `operator()(Is... indices)` of the C++ classes.
Machine indices (`index_t`, a 64-bit signed integer) are modelled as
`Int`; the claims under study never exercise 64-bit overflow.
-/

namespace MatXSpec

/-- An operator node: per-dimension extents (`Size(dim)`, `index_t` values)
and element access over one coordinate per dimension, as in the
operator-node contract of `base_operator.h`.  Rank is the length of
`sizes`. -/
structure TensorOp (α : Type) where
  sizes : List Int
  elem : List Int → α

/-- Coordinates are in range when there is one per dimension and each lies
in `[0, Size(dim))`. -/
def InRange (sizes : List Int) (idx : List Int) : Prop :=
  idx.length = sizes.length ∧
    ∀ d, d < sizes.length → 0 ≤ idx.getD d 0 ∧ idx.getD d 0 < sizes.getD d 0

instance (sizes idx : List Int) : Decidable (InRange sizes idx) := by
  unfold InRange; infer_instance

/- ------------------------------------------------------------------ -/
/- Shape & index algebra                                              -/
/- ------------------------------------------------------------------ -/

/-- Modelled from the spec: `TotalSize` (§4.1, not under `src/`) — the
total element count is the product of all dimension extents, with the
empty/rank-0 shape giving 1. -/
def TotalSize (sizes : List Int) : Int :=
  sizes.prod

/-- Modelled from the spec: `GetIdxFromAbs` (§4.1, not under `src/`) —
conversion from a flat element index to per-dimension coordinates in
row-major order (last dimension fastest-varying). -/
def GetIdxFromAbs : List Int → Int → List Int
  | [], _ => []
  | _ :: rest, abs =>
      abs / TotalSize rest :: GetIdxFromAbs rest (abs % TotalSize rest)

/-- Modelled from the spec: the reverse coordinates-to-flat-index mapping
of §4.1 (used only for diagnostics in the source). -/
def AbsFromIdx : List Int → List Int → Int
  | _ :: rest, c :: cs => c * TotalSize rest + AbsFromIdx rest cs
  | _, _ => 0

theorem totalSize_cons (s : Int) (rest : List Int) :
    TotalSize (s :: rest) = s * TotalSize rest := by
  simp [TotalSize]

theorem totalSize_pos {sizes : List Int} (h : ∀ s ∈ sizes, 0 < s) :
    0 < TotalSize sizes := by
  induction sizes with
  | nil => simp [TotalSize]
  | cons s rest ih =>
      rw [totalSize_cons]
      exact mul_pos (h s (by simp)) (ih fun x hx => h x (by simp [hx]))

theorem inRange_sizes_pos {sizes idx : List Int} (h : InRange sizes idx) :
    ∀ s ∈ sizes, 0 < s := by
  intro s hs
  obtain ⟨d, hd, rfl⟩ := List.getElem_of_mem hs
  have := (h.2 d hd).1
  have := (h.2 d hd).2
  have hg : sizes.getD d 0 = sizes[d] := List.getD_eq_getElem sizes 0 hd
  omega

theorem inRange_cons_iff {s c : Int} {rest cs : List Int} :
    InRange (s :: rest) (c :: cs) ↔ (0 ≤ c ∧ c < s) ∧ InRange rest cs := by
  constructor
  · intro h
    refine ⟨⟨?_, ?_⟩, ?_, ?_⟩
    · simpa using (h.2 0 (by simp)).1
    · simpa using (h.2 0 (by simp)).2
    · simpa using h.1
    · intro d hd
      simpa using h.2 (d + 1) (by simpa using hd)
  · rintro ⟨⟨hc0, hcs⟩, hlen, hall⟩
    refine ⟨by simpa using hlen, ?_⟩
    intro d hd
    match d with
    | 0 => simpa using ⟨hc0, hcs⟩
    | d + 1 => simpa using hall d (by simpa using hd)

theorem absFromIdx_bounds {sizes idx : List Int} (h : InRange sizes idx) :
    0 ≤ AbsFromIdx sizes idx ∧ AbsFromIdx sizes idx < TotalSize sizes := by
  induction sizes generalizing idx with
  | nil =>
      have : idx = [] := List.length_eq_zero.mp (by simpa using h.1)
      subst this
      simp [AbsFromIdx, TotalSize]
  | cons s rest ih =>
      match idx with
      | [] => exact absurd h.1 (by simp)
      | c :: cs =>
          obtain ⟨⟨hc0, hcs⟩, htail⟩ := inRange_cons_iff.mp h
          obtain ⟨ha0, hau⟩ := ih htail
          have hT : 0 < TotalSize rest :=
            totalSize_pos (inRange_sizes_pos htail)
          simp only [AbsFromIdx]
          constructor
          · positivity
          · rw [totalSize_cons]
            nlinarith

theorem getIdxFromAbs_absFromIdx {sizes idx : List Int} (h : InRange sizes idx) :
    GetIdxFromAbs sizes (AbsFromIdx sizes idx) = idx := by
  induction sizes generalizing idx with
  | nil =>
      have : idx = [] := List.length_eq_zero.mp (by simpa using h.1)
      subst this
      simp [GetIdxFromAbs, AbsFromIdx]
  | cons s rest ih =>
      match idx with
      | [] => exact absurd h.1 (by simp)
      | c :: cs =>
          obtain ⟨⟨hc0, hcs⟩, htail⟩ := inRange_cons_iff.mp h
          obtain ⟨ha0, hau⟩ := absFromIdx_bounds htail
          have hT : 0 < TotalSize rest :=
            totalSize_pos (inRange_sizes_pos htail)
          simp only [GetIdxFromAbs, AbsFromIdx]
          have hdiv : (c * TotalSize rest + AbsFromIdx rest cs) / TotalSize rest = c := by
            rw [add_comm, Int.add_mul_ediv_right _ _ (ne_of_gt hT),
              Int.ediv_eq_zero_of_lt ha0 hau, zero_add]
          have hmod : (c * TotalSize rest + AbsFromIdx rest cs) % TotalSize rest
              = AbsFromIdx rest cs := by
            rw [add_comm, Int.add_mul_emod_self, Int.emod_eq_of_lt ha0 hau]
          rw [hdiv, hmod, ih htail]

theorem absFromIdx_getIdxFromAbs {sizes : List Int} (hpos : ∀ s ∈ sizes, 0 < s)
    {k : Int} (h0 : 0 ≤ k) (hk : k < TotalSize sizes) :
    AbsFromIdx sizes (GetIdxFromAbs sizes k) = k ∧ InRange sizes (GetIdxFromAbs sizes k) := by
  induction sizes generalizing k with
  | nil =>
      simp [TotalSize] at hk
      simp [GetIdxFromAbs, AbsFromIdx, InRange]
      omega
  | cons s rest ih =>
      have hs : 0 < s := hpos s (by simp)
      have hT : 0 < TotalSize rest :=
        totalSize_pos fun x hx => hpos x (by simp [hx])
      have hm0 : 0 ≤ k % TotalSize rest := Int.emod_nonneg k (ne_of_gt hT)
      have hmu : k % TotalSize rest < TotalSize rest := Int.emod_lt_of_pos k hT
      obtain ⟨ihe, ihr⟩ := ih (fun x hx => hpos x (by simp [hx])) hm0 hmu
      have hd0 : 0 ≤ k / TotalSize rest := Int.ediv_nonneg h0 (le_of_lt hT)
      have hdu : k / TotalSize rest < s := by
        rw [Int.ediv_lt_iff_lt_mul hT]
        rw [totalSize_cons] at hk
        linarith
      refine ⟨?_, ?_⟩
      · simp only [GetIdxFromAbs, AbsFromIdx, ihe]
        rw [mul_comm]
        exact Int.ediv_add_emod k (TotalSize rest)
      · exact inRange_cons_iff.mpr ⟨⟨hd0, hdu⟩, ihr⟩

theorem getD_set_self (l : List Int) (d : Nat) (v : Int) (h : d < l.length) :
    (l.set d v).getD d 0 = v := by
  rw [List.getD_eq_getElem _ _ (by simpa using h)]
  exact List.getElem_set_self (by simpa using h)

theorem set_getD_self (l : List Int) (d : Nat) :
    l.set d (l.getD d 0) = l := by
  induction l generalizing d with
  | nil => rfl
  | cons a as ih =>
      match d with
      | 0 => rfl
      | d + 1 => simpa [List.set] using ih d

/- ------------------------------------------------------------------ -/
/- ReverseOp (operators/reverse.h)                                    -/
/- ------------------------------------------------------------------ -/

/-- `ReverseOp<DIM, T1>`: `get_impl` writes
`idx[DIM] = op.Size(DIM) - idx[DIM] - 1` and forwards to the inner node;
`Size(dim)` returns `op_.Size(dim)` unchanged. -/
def reverseOp (DIM : Nat) (t : TensorOp α) : TensorOp α where
  sizes := t.sizes
  elem := fun idx =>
    t.elem (idx.set DIM (t.sizes.getD DIM 0 - idx.getD DIM 0 - 1))

/-- C9: reversing twice along the same dimension is the identity
element-for-element on coordinate tuples of the node's rank; a single
reverse maps coordinate `i` in the reversed dimension to
`Size(DIM) - i - 1` of the inner node and leaves every dimension's size
unchanged. -/
theorem reverse_involution (t : TensorOp α) (DIM : Nat) (idx : List Int)
    (hlen : idx.length = t.sizes.length) (hDIM : DIM < t.sizes.length) :
    (reverseOp DIM (reverseOp DIM t)).elem idx = t.elem idx ∧
    (reverseOp DIM t).sizes = t.sizes ∧
    (reverseOp DIM t).elem idx
      = t.elem (idx.set DIM (t.sizes.getD DIM 0 - idx.getD DIM 0 - 1)) := by
  refine ⟨?_, rfl, rfl⟩
  have hidx : DIM < idx.length := hlen ▸ hDIM
  simp only [reverseOp]
  rw [getD_set_self idx DIM _ hidx, List.set_set]
  have : t.sizes.getD DIM 0 - (t.sizes.getD DIM 0 - idx.getD DIM 0 - 1) - 1
      = idx.getD DIM 0 := by ring
  rw [this, set_getD_self]

/-- A sample rank-1 node used to instantiate hypotheses of the view
theorems on concrete data; its element function returns the coordinate
list itself so the accessed coordinates are observable. -/
def obsNode1 : TensorOp (List Int) where
  sizes := [3]
  elem := id

theorem reverse_involution_witness :
    (reverseOp 0 (reverseOp 0 obsNode1)).elem [1] = obsNode1.elem [1] :=
  (reverse_involution obsNode1 0 [1] rfl (by decide)).1

/- ------------------------------------------------------------------ -/
/- RepMatOp (operators/stdd.h, repmat portion)                        -/
/- ------------------------------------------------------------------ -/

/-- `RepMatOp<T1, DIM>::Size(dim)` returns `op_.Size(dim) * reps_[dim]`. -/
def repmatSizes (t : TensorOp α) (reps : List Int) : List Int :=
  (List.range t.sizes.length).map fun d => t.sizes.getD d 0 * reps.getD d 0

/-- `RepMatOp<T1, DIM>`: `get_impl` replaces every coordinate by
`idx[i] %= op.Size(i)` (C++ `%` is truncating, `Int.tmod`) and forwards
to the inner node. -/
def repmatOp (t : TensorOp α) (reps : List Int) : TensorOp α where
  sizes := repmatSizes t reps
  elem := fun idx => t.elem (List.zipWith Int.tmod idx t.sizes)

theorem zipWith_tmod_eq_emod :
    ∀ (idx szs : List Int), (∀ d, 0 ≤ idx.getD d 0) → (∀ s ∈ szs, 0 ≤ s) →
    List.zipWith Int.tmod idx szs = List.zipWith (· % ·) idx szs
  | [], _, _, _ => by simp
  | _ :: _, [], _, _ => by simp
  | i :: is, s :: ss, hnn, hpos => by
      simp only [List.zipWith]
      rw [Int.tmod_eq_emod (by simpa using hnn 0) (hpos s (by simp)),
        zipWith_tmod_eq_emod is ss (fun d => by simpa using hnn (d + 1))
          (fun x hx => hpos x (by simp [hx]))]

/-- C7: the repeat ("repmat") node's size in each dimension `d` is the
inner size times the repeat factor for `d`, and its element at a
non-negative coordinate tuple is the inner element at
`i mod size(d)` in every dimension. -/
theorem repmat_spec (t : TensorOp α) (reps idx : List Int)
    (hnn : ∀ d, 0 ≤ idx.getD d 0) (hpos : ∀ s ∈ t.sizes, 0 ≤ s) :
    (∀ d, d < t.sizes.length →
      (repmatOp t reps).sizes.getD d 0 = t.sizes.getD d 0 * reps.getD d 0) ∧
    (repmatOp t reps).elem idx = t.elem (List.zipWith (· % ·) idx t.sizes) := by
  constructor
  · intro d hd
    simp only [repmatOp, repmatSizes]
    rw [List.getD_eq_getElem _ _ (by simpa using hd)]
    simp
  · simp only [repmatOp]
    rw [zipWith_tmod_eq_emod idx t.sizes hnn hpos]

/-- C7 instantiated on the concrete scenario of the spec: a size-`[2]`
node repeated 3 times has size `[6]` and its element `4` is element
`4 mod 2 = 0` of the input. -/
theorem repmat_spec_witness :
    (repmatOp ⟨[2], id⟩ [3]).sizes.getD 0 0 = 6 ∧
    (repmatOp ⟨[2], id⟩ [3]).elem [4] = TensorOp.elem ⟨[2], id⟩ [0] := by
  have h := repmat_spec (⟨[2], id⟩ : TensorOp (List Int)) [3] [4]
    (by intro d; match d with | 0 => decide | d + 1 => simp) (by decide)
  refine ⟨?_, ?_⟩
  · rw [h.1 0 (by decide)]; decide
  · rw [h.2]; rfl

/- ------------------------------------------------------------------ -/
/- FlattenOp (operators/flatten.h)                                    -/
/- ------------------------------------------------------------------ -/

/-- `FlattenOp<T1>::Size(dim)`: starts from `size = 1` and, when
`dim == 0`, multiplies in every inner dimension extent. -/
def flattenSizeFn (t : TensorOp α) (dim : Nat) : Int :=
  if dim = 0 then t.sizes.foldl (· * ·) 1 else 1

/-- `FlattenOp<T1>`: rank-1 node; `operator()(id0)` dereferences
`RandomOperatorIterator{op1_, id0}`.  The iterator lives outside the
excerpted sources; its flat-to-coordinate conversion is modelled from
the spec as `GetIdxFromAbs` (§4.1, row-major). -/
def flattenOp (t : TensorOp α) : TensorOp α where
  sizes := [flattenSizeFn t 0]
  elem := fun idx => t.elem (GetIdxFromAbs t.sizes (idx.getD 0 0))

/-- C8: for inner rank > 1 the flatten node is rank 1 with size the
product of all inner extents, its element at flat index `k` is the inner
element at the row-major coordinate tuple for `k`, and flattening then
mapping a coordinate tuple through the coordinates-to-flat mapping
recovers the original element. -/
theorem flatten_spec (t : TensorOp α) (idx : List Int)
    (_hrank : 1 < t.sizes.length) (hin : InRange t.sizes idx) :
    (flattenOp t).sizes = [TotalSize t.sizes] ∧
    (∀ k : Int, (flattenOp t).elem [k] = t.elem (GetIdxFromAbs t.sizes k)) ∧
    (flattenOp t).elem [AbsFromIdx t.sizes idx] = t.elem idx := by
  refine ⟨?_, fun k => rfl, ?_⟩
  · simp [flattenOp, flattenSizeFn, TotalSize, List.prod_eq_foldl]
  · show t.elem (GetIdxFromAbs t.sizes (AbsFromIdx t.sizes idx)) = t.elem idx
    rw [getIdxFromAbs_absFromIdx hin]

/-- A sample rank-2 node of size `[2,3]` whose element function returns
the accessed coordinates. -/
def obsNode2 : TensorOp (List Int) where
  sizes := [2, 3]
  elem := id

theorem flatten_spec_witness :
    (flattenOp obsNode2).sizes = [6] ∧
    (flattenOp obsNode2).elem [5] = obsNode2.elem [1, 2] := by
  have h := flatten_spec obsNode2 [1, 2] (by decide) (by decide)
  refine ⟨by rw [h.1]; decide, ?_⟩
  have h5 : AbsFromIdx obsNode2.sizes [1, 2] = 5 := by decide
  simpa [h5] using h.2.2

/- ------------------------------------------------------------------ -/
/- SliceOp (operators/slice.h portion of the sources)                 -/
/- ------------------------------------------------------------------ -/

/-- Modelled from the spec: the reserved end sentinels (`matxEnd`,
`matxDropDim`, `matxKeepDim`, defined in `core/defines.h`, which is not
among the excerpted sources) are abstracted as constructors instead of
huge reserved `index_t` values; `val v` is an ordinary end index below
`matxIdxSentinel`. -/
inductive SliceBound where
  | val (v : Int)
  | matxEnd
  | matxDropDim
  | matxKeepDim
deriving DecidableEq, Repr

/-- Arguments of the `SliceOp` constructor: per-dimension starts, ends
and the optional strides (`NoStride` is `none`). -/
structure SliceArgs where
  starts : List Int
  ends : List SliceBound
  strides : Option (List Int)

/-- Error kinds raised by `MATX_ASSERT_STR` in the `SliceOp`
constructor: `matxInvalidDim` for a failed range check and
`matxInvalidParameter` for `matxKeepDim`. -/
inductive SliceErr where
  | rangeErr
  | paramErr
deriving DecidableEq, Repr

/-- State of a constructed `SliceOp`: the inner node together with the
member arrays `starts_` (resolved, one per input dimension), `dims_`
(input dimension backing each output dimension), `sizes_` (per output
dimension) and `strides_`. -/
structure SliceData (α : Type) where
  op : TensorOp α
  starts_ : List Int
  dims_ : List Nat
  sizes_ : List Int
  strides_ : Option (List Int)

/-- Python-style resolution: `starts[i] < 0 ? op.Size(i) + starts[i] :
starts[i]` (and the same for a non-sentinel end). -/
def resolveIdx (sz v : Int) : Int :=
  if v < 0 then sz + v else v

/-- Integer ceiling of `a / b`, the effect of
`std::ceil(double(a) / double(b))` on in-range `index_t` values. -/
def ceilDivInt (a b : Int) : Int :=
  -((-a).fdiv b)

def szAt (t : TensorOp α) (i : Nat) : Int := t.sizes.getD i 0

def startAt (t : TensorOp α) (sp : SliceArgs) (i : Nat) : Int :=
  resolveIdx (szAt t i) (sp.starts.getD i 0)

/-- The end value for dimension `i` after Python-style resolution;
sentinels are larger than `matxIdxSentinel`, hence never negative and
never resolved. -/
def endAt (t : TensorOp α) (sp : SliceArgs) (i : Nat) : SliceBound :=
  match sp.ends.getD i SliceBound.matxEnd with
  | SliceBound.val v => SliceBound.val (resolveIdx (szAt t i) v)
  | b => b

/-- The end-range assert `(end > matxIdxSentinel) || (end <= op.Size(i))`:
sentinels pass, a plain end value must be `≤ Size(i)`. -/
def endValOK (t : TensorOp α) (sp : SliceArgs) (i : Nat) : Bool :=
  match endAt t sp i with
  | SliceBound.val v => v ≤ szAt t i
  | _ => true

def strideAt (strides : Option (List Int)) (i : Nat) : Int :=
  match strides with
  | some str => str.getD i 1
  | none => 1

/-- Stride adjustment of a kept dimension's size:
`sizes_[d] = ceil(sizes_[d] / strides_[d])` when strides are present. -/
def adjSize (strides : Option (List Int)) (i : Nat) (raw : Int) : Int :=
  match strides with
  | some str => ceilDivInt raw (str.getD i 1)
  | none => raw

/-- The constructor loop of `SliceOp` over the listed input dimensions;
returns the member arrays `(starts_, dims_, sizes_)` or the first
assertion failure.  Mirrors, per dimension `i`: the two range asserts,
the `matxDropDim` test, the `matxKeepDim` assert, and the size
computation with optional stride adjustment. -/
def sliceSteps (t : TensorOp α) (sp : SliceArgs) :
    List Nat → Except SliceErr (List Int × List Nat × List Int)
  | [] => Except.ok ([], [], [])
  | i :: rest =>
      if startAt t sp i < szAt t i then
        if endValOK t sp i then
          match endAt t sp i, sliceSteps t sp rest with
          | SliceBound.matxDropDim, Except.ok (ss, ds, zs) =>
              Except.ok (startAt t sp i :: ss, ds, zs)
          | SliceBound.matxDropDim, Except.error e => Except.error e
          | SliceBound.matxKeepDim, _ => Except.error SliceErr.paramErr
          | SliceBound.matxEnd, Except.ok (ss, ds, zs) =>
              Except.ok (startAt t sp i :: ss, i :: ds,
                adjSize sp.strides i (szAt t i - startAt t sp i) :: zs)
          | SliceBound.matxEnd, Except.error e => Except.error e
          | SliceBound.val v, Except.ok (ss, ds, zs) =>
              Except.ok (startAt t sp i :: ss, i :: ds,
                adjSize sp.strides i (v - startAt t sp i) :: zs)
          | SliceBound.val _, Except.error e => Except.error e
        else Except.error SliceErr.rangeErr
      else Except.error SliceErr.rangeErr

/-- `SliceOp::SliceOp`: runs the constructor loop over all input
dimensions (all checks happen here, none at element access). -/
def sliceMake (t : TensorOp α) (sp : SliceArgs) : Except SliceErr (SliceData α) :=
  match sliceSteps t sp (List.range t.sizes.length) with
  | Except.error e => Except.error e
  | Except.ok (ss, ds, zs) => Except.ok ⟨t, ss, ds, zs, sp.strides⟩

/-- The inner loop of `get_impl`: the output position `j` backed by
input dimension `i` (`dims_` is strictly increasing, so the first match
is the only one, as in the overwriting C++ loop). -/
def posInDims : List Nat → Nat → Option Nat
  | [], _ => none
  | d :: ds, i => if d = i then some 0 else (posInDims ds i).map (· + 1)

/-- `SliceOp::get_impl`: starts from `ind = starts_` and overwrites
`ind[i] = starts_[j] + inds[j] * strides_[i]` for the output position
`j` with `dims_[j] == i` (the `NoStride` branch omits the
multiplication, i.e. uses stride 1). -/
def sliceElem (d : SliceData α) (inds : List Int) : α :=
  d.op.elem ((List.range d.op.sizes.length).map fun i =>
    match posInDims d.dims_ i with
    | some j => d.starts_.getD j 0 + inds.getD j 0 * strideAt d.strides_ i
    | none => d.starts_.getD i 0)

/-- The raw (pre-stride) size of kept dimension `i`:
`op.Size(i) - start` for `matxEnd`, else `end - start`. -/
def rawSizeAt (t : TensorOp α) (sp : SliceArgs) (i : Nat) : Int :=
  match endAt t sp i with
  | SliceBound.matxEnd => szAt t i - startAt t sp i
  | SliceBound.val v => v - startAt t sp i
  | _ => 0

def sliceSizeAt (t : TensorOp α) (sp : SliceArgs) (i : Nat) : Int :=
  adjSize sp.strides i (rawSizeAt t sp i)

/-- The per-dimension construction checks of the `SliceOp` constructor:
resolved start strictly below `Size(i)`, resolved non-sentinel end at
most `Size(i)`, and no `matxKeepDim`. -/
def dimChecksOK (t : TensorOp α) (sp : SliceArgs) (i : Nat) : Prop :=
  startAt t sp i < szAt t i ∧ endValOK t sp i = true ∧
    endAt t sp i ≠ SliceBound.matxKeepDim

instance (t : TensorOp α) (sp : SliceArgs) (i : Nat) :
    Decidable (dimChecksOK t sp i) := by
  unfold dimChecksOK; infer_instance

theorem sliceSteps_ok_iff (t : TensorOp α) (sp : SliceArgs) :
    ∀ is : List Nat,
      (∃ r, sliceSteps t sp is = Except.ok r) ↔ ∀ i ∈ is, dimChecksOK t sp i
  | [] => by simp [sliceSteps]
  | i :: rest => by
      constructor
      · rintro ⟨r, hr⟩ j hj
        simp only [sliceSteps] at hr
        by_cases h1 : startAt t sp i < szAt t i
        · rw [if_pos h1] at hr
          by_cases h2 : endValOK t sp i
          · rw [if_pos h2] at hr
            rcases List.mem_cons.mp hj with rfl | hj
            · refine ⟨h1, h2, ?_⟩
              intro hK
              rw [hK] at hr
              exact absurd hr (by simp)
            · rcases hR : sliceSteps t sp rest with e | r'
              · rw [hR] at hr
                cases hE : endAt t sp i <;> rw [hE] at hr <;>
                  exact absurd hr (by simp)
              · exact (sliceSteps_ok_iff t sp rest).mp ⟨r', hR⟩ j hj
          · rw [if_neg h2] at hr
            exact absurd hr (by simp)
        · rw [if_neg h1] at hr
          exact absurd hr (by simp)
      · intro hall
        obtain ⟨h1, h2, h3⟩ := hall i (by simp)
        obtain ⟨⟨ss, ds, zs⟩, hR⟩ := (sliceSteps_ok_iff t sp rest).mpr
          fun j hj => hall j (by simp [hj])
        simp only [sliceSteps, if_pos h1, if_pos h2]
        cases hE : endAt t sp i
        · exact ⟨_, by rw [hR]⟩
        · exact ⟨_, by rw [hR]⟩
        · exact ⟨_, by rw [hR]⟩
        · exact absurd hE h3

/-- C3 (amended): negative starts/ends are resolved Python-style against
the inner size, and construction succeeds iff, in every dimension, the
resolved start is strictly below `Size(dim)`, a resolved non-sentinel
end is at most `Size(dim)`, and the end is not `matxKeepDim`; all
checks run in the constructor, never at element access.  (A resolved
start or end below 0 is accepted, and a start equal to `Size(dim)` is
rejected, unlike the `[0, size]` window of the claim.) -/
theorem slice_construction_checks (t : TensorOp α) (sp : SliceArgs) :
    (∃ d, sliceMake t sp = Except.ok d) ↔
      ∀ i, i < t.sizes.length → dimChecksOK t sp i := by
  constructor
  · rintro ⟨d, hd⟩ i hi
    rcases hS : sliceSteps t sp (List.range t.sizes.length) with e | r
    · rw [sliceMake, hS] at hd
      exact absurd hd (by simp)
    · exact (sliceSteps_ok_iff t sp _).mp ⟨r, hS⟩ i (List.mem_range.mpr hi)
  · intro hall
    obtain ⟨⟨ss, ds, zs⟩, hS⟩ := (sliceSteps_ok_iff t sp _).mpr
      fun i hi => hall i (List.mem_range.mp hi)
    exact ⟨_, by rw [sliceMake, hS]⟩

/-- Concrete slice arguments with a resolved start of `-1` on a
size-`[3]` node (outside `[0, 3]`). -/
def spNeg : SliceArgs := ⟨[-4], [SliceBound.val 3], none⟩

/-- Concrete slice arguments with start `3` on a size-`[3]` node
(inside the claim's `[0, 3]` window). -/
def spAtSize : SliceArgs := ⟨[3], [SliceBound.val 3], none⟩

/-- C3 counterexample: on a size-`[3]` node, `starts = [-4]` resolves to
`-1`, which falls outside `[0, 3]`, yet construction succeeds; while
`starts = [3]` resolves to `3`, inside `[0, 3]`, yet construction fails
with a range error. -/
theorem slice_bounds_claim_cex :
    resolveIdx 3 (-4) = -1 ∧ ¬ (0 ≤ resolveIdx 3 (-4)) ∧
    (∃ d, sliceMake obsNode1 spNeg = Except.ok d) ∧
    (0 ≤ resolveIdx 3 3 ∧ resolveIdx 3 3 ≤ 3) ∧
    sliceMake obsNode1 spAtSize = Except.error SliceErr.rangeErr :=
  ⟨by decide, by decide, ⟨_, rfl⟩, by decide, rfl⟩

theorem sliceSteps_nodrop (t : TensorOp α) (sp : SliceArgs) :
    ∀ (is : List Nat) (ss : List Int) (ds : List Nat) (zs : List Int),
      (∀ i ∈ is, endAt t sp i ≠ SliceBound.matxDropDim) →
      sliceSteps t sp is = Except.ok (ss, ds, zs) →
      ss = is.map (startAt t sp) ∧ ds = is ∧ zs = is.map (sliceSizeAt t sp)
  | [], ss, ds, zs, _, h => by
      simp only [sliceSteps, Except.ok.injEq, Prod.mk.injEq] at h
      obtain ⟨h1, h2, h3⟩ := h
      simp [← h1, ← h2, ← h3]
  | i :: rest, ss, ds, zs, hnd, h => by
      simp only [sliceSteps] at h
      by_cases h1 : startAt t sp i < szAt t i
      case neg => rw [if_neg h1] at h; exact absurd h (by simp)
      rw [if_pos h1] at h
      by_cases h2 : endValOK t sp i
      case neg => rw [if_neg h2] at h; exact absurd h (by simp)
      rw [if_pos h2] at h
      rcases hR : sliceSteps t sp rest with e | ⟨ss', ds', zs'⟩
      · rw [hR] at h
        cases hE : endAt t sp i <;> rw [hE] at h <;> exact absurd h (by simp)
      · rw [hR] at h
        obtain ⟨hss, hds, hzs⟩ := sliceSteps_nodrop t sp rest ss' ds' zs'
          (fun j hj => hnd j (by simp [hj])) hR
        cases hE : endAt t sp i
        next v =>
          rw [hE] at h
          simp only [Except.ok.injEq, Prod.mk.injEq] at h
          obtain ⟨hA, hB, hC⟩ := h
          refine ⟨?_, ?_, ?_⟩
          · rw [← hA, hss, List.map_cons]
          · rw [← hB, hds]
          · rw [← hC, hzs, List.map_cons]
            have hsz : sliceSizeAt t sp i = adjSize sp.strides i (v - startAt t sp i) := by
              simp [sliceSizeAt, rawSizeAt, hE]
            rw [hsz]
        · rw [hE] at h
          simp only [Except.ok.injEq, Prod.mk.injEq] at h
          obtain ⟨hA, hB, hC⟩ := h
          refine ⟨?_, ?_, ?_⟩
          · rw [← hA, hss, List.map_cons]
          · rw [← hB, hds]
          · rw [← hC, hzs, List.map_cons]
            have hsz : sliceSizeAt t sp i
                = adjSize sp.strides i (szAt t i - startAt t sp i) := by
              simp [sliceSizeAt, rawSizeAt, hE]
            rw [hsz]
        · exact absurd hE (hnd i (by simp))
        · rw [hE] at h
          exact absurd h (by simp)

theorem posInDims_range' : ∀ (n s i : Nat),
    posInDims (List.range' s n) i =
      if s ≤ i ∧ i < s + n then some (i - s) else none
  | 0, s, i => by
      rw [if_neg (by omega)]
      rfl
  | n + 1, s, i => by
      show posInDims (s :: List.range' (s + 1) n) i = _
      simp only [posInDims]
      by_cases hsi : s = i
      · rw [if_pos hsi, if_pos (by omega)]
        subst hsi
        simp
      · rw [if_neg hsi, posInDims_range' n (s + 1) i]
        by_cases h2 : s + 1 ≤ i ∧ i < s + 1 + n
        · rw [if_pos h2, if_pos (by omega)]
          simp only [Option.map_some']
          congr 1
          omega
        · rw [if_neg h2, if_neg (by omega)]
          rfl

theorem posInDims_range {n i : Nat} (h : i < n) :
    posInDims (List.range n) i = some i := by
  rw [List.range_eq_range', posInDims_range' n 0 i, if_pos (by omega)]
  simp

theorem getD_map_range (f : Nat → Int) (n i : Nat) (h : i < n) :
    ((List.range n).map f).getD i 0 = f i := by
  rw [List.getD_eq_getElem _ _ (by simpa using h)]
  simp

/-- C1 (amended): for a slice that drops no dimension, indexing the
sliced node at local coordinates `inds` reads the inner node at
coordinate `starts[dim] + inds[dim] * stride[dim]` in every dimension
(stride 1 when no strides are given), and the constructed sizes are the
stride-adjusted `end - start` extents.  (When a dimension is dropped,
`get_impl` pairs the output position's start `starts_[j]` with input
dimension `i`, so the claim's `starts[dim] + i*stride[dim]` form fails
in general; see the counterexample.) -/
theorem slice_no_drop_roundtrip (t : TensorOp α) (sp : SliceArgs) (d : SliceData α)
    (hnd : ∀ i, i < t.sizes.length → endAt t sp i ≠ SliceBound.matxDropDim)
    (hok : sliceMake t sp = Except.ok d) :
    d.dims_ = List.range t.sizes.length ∧
    d.sizes_ = (List.range t.sizes.length).map (sliceSizeAt t sp) ∧
    ∀ inds : List Int,
      sliceElem d inds = t.elem ((List.range t.sizes.length).map fun i =>
        startAt t sp i + inds.getD i 0 * strideAt sp.strides i) := by
  rcases hS : sliceSteps t sp (List.range t.sizes.length) with e | ⟨ss, ds, zs⟩
  · rw [sliceMake, hS] at hok
    exact absurd hok (by simp)
  · rw [sliceMake, hS, Except.ok.injEq] at hok
    obtain ⟨hss, hds, hzs⟩ := sliceSteps_nodrop t sp _ ss ds zs
      (fun j hj => hnd j (List.mem_range.mp hj)) hS
    subst hok hss hds hzs
    refine ⟨rfl, rfl, fun inds => ?_⟩
    show t.elem _ = t.elem _
    congr 1
    apply List.map_congr_left
    intro i hi
    have hilt : i < t.sizes.length := List.mem_range.mp hi
    rw [posInDims_range hilt]
    dsimp only
    rw [getD_map_range _ _ _ hilt]

/-- A sample rank-2 node of size `[3,4]` whose element function returns
the accessed coordinates. -/
def obsNode34 : TensorOp (List Int) where
  sizes := [3, 4]
  elem := id

/-- The concrete scenario of the spec: `starts=[0,1]`, `ends=[3,3]`,
no strides. -/
def spConcrete : SliceArgs := ⟨[0, 1], [SliceBound.val 3, SliceBound.val 3], none⟩

/-- The `SliceOp` state produced for `spConcrete` on `obsNode34`. -/
def dConcrete : SliceData (List Int) := ⟨obsNode34, [0, 1], [0, 1], [3, 2], none⟩

theorem slice_no_drop_roundtrip_witness :
    sliceMake obsNode34 spConcrete = Except.ok dConcrete ∧
    dConcrete.sizes_ = [3, 2] ∧
    sliceElem dConcrete [1, 0] = obsNode34.elem [1, 1] := by
  have h := slice_no_drop_roundtrip obsNode34 spConcrete dConcrete
    (by decide) rfl
  refine ⟨rfl, rfl, ?_⟩
  rw [h.2.2 [1, 0]]
  rfl

/-- A slice of `obsNode34` that drops dimension 0 at start 1 and keeps
all of dimension 1 with start 0. -/
def spCexC1 : SliceArgs := ⟨[1, 0], [SliceBound.matxDropDim, SliceBound.matxEnd], none⟩

/-- The `SliceOp` state produced for `spCexC1` on `obsNode34`. -/
def dCexC1 : SliceData (List Int) := ⟨obsNode34, [1, 0], [1], [4], none⟩

/-- C1 counterexample: slicing the `[3,4]` node with
`starts=[1,0]`, `ends=[matxDropDim, matxEnd]` succeeds, but indexing the
result at local coordinate `2` reads the inner node at `(1, 3)`, not at
`(1, starts[1] + 2*1) = (1, 2)` as the claim requires for the kept
dimension. -/
theorem slice_claim_cex :
    sliceMake obsNode34 spCexC1 = Except.ok dCexC1 ∧
    sliceElem dCexC1 [2] = ([1, 3] : List Int) ∧
    startAt obsNode34 spCexC1 1 + 2 * strideAt none 1 = 2 ∧
    ([1, 3] : List Int) ≠ [1, 2] :=
  ⟨rfl, rfl, by decide, by decide⟩

/- ------------------------------------------------------------------ -/
/- Capability negotiation (ELEMENTS_PER_THREAD kind)                  -/
/- ------------------------------------------------------------------ -/

/-- Modelled from the spec: the `ElementsPerThread` enumeration of
`core/capabilities.h` (not under `src/`) — candidate per-step processing
widths; `maxWidth` stands for the kind's "no constraint" default value
(`capability_attributes<ELEMENTS_PER_THREAD>::default_value`). -/
inductive ElementsPerThread where
  | one
  | two
  | four
  | eight
  | sixteen
  | thirtytwo
  | maxWidth
deriving DecidableEq, Repr

/-- Numeric width of an `ElementsPerThread` value (the enum's
underlying value; `maxWidth` is above every concrete width). -/
def ElementsPerThread.toNat : ElementsPerThread → Nat
  | one => 1
  | two => 2
  | four => 4
  | eight => 8
  | sixteen => 16
  | thirtytwo => 32
  | maxWidth => 64

/-- Modelled from the spec: `combine_capabilities` for the granularity
kind takes the minimum over the combined values (§4.3). -/
def combineEPT (a b : ElementsPerThread) : ElementsPerThread :=
  if a.toNat ≤ b.toNat then a else b

/-- Expression trees for the capability query: leaves declaring a width,
element-wise combining nodes, and the five non-contiguous views of the
sources (slice, reverse, remap, repeat/repmat, flatten). -/
inductive ExprNode where
  | leaf (w : ElementsPerThread)
  | binop (l r : ExprNode)
  | sliceView (inner : ExprNode)
  | reverseView (inner : ExprNode)
  | remapView (inner : ExprNode) (idxArg : ExprNode)
  | repeatView (inner : ExprNode)
  | flattenView (inner : ExprNode)

/-- The `get_capability<ELEMENTS_PER_THREAD>` traversal: each of the
five view classes returns `ElementsPerThread::ONE` outright
(`reverse.h`, `flatten.h`, and the slice/remap/repmat sources), while a
generic node combines the kind's default with its inner nodes'
capabilities. -/
def getCapabilityEPT : ExprNode → ElementsPerThread
  | ExprNode.leaf w => w
  | ExprNode.binop l r =>
      combineEPT ElementsPerThread.maxWidth
        (combineEPT (getCapabilityEPT l) (getCapabilityEPT r))
  | ExprNode.sliceView _ => ElementsPerThread.one
  | ExprNode.reverseView _ => ElementsPerThread.one
  | ExprNode.remapView _ _ => ElementsPerThread.one
  | ExprNode.repeatView _ => ElementsPerThread.one
  | ExprNode.flattenView _ => ElementsPerThread.one

/-- The non-contiguous view wrappers named by the claim. -/
inductive ViewKind where
  | sliceK
  | reverseK
  | remapK (idxArg : ExprNode)
  | repeatK
  | flattenK

def applyView : ViewKind → ExprNode → ExprNode
  | ViewKind.sliceK, t => ExprNode.sliceView t
  | ViewKind.reverseK, t => ExprNode.reverseView t
  | ViewKind.remapK idx, t => ExprNode.remapView t idx
  | ViewKind.repeatK, t => ExprNode.repeatView t
  | ViewKind.flattenK, t => ExprNode.flattenView t

theorem ept_one_le (e : ElementsPerThread) :
    ElementsPerThread.one.toNat ≤ e.toNat := by
  cases e <;> decide

/-- C5: wrapping any expression tree in a slice, reverse, remap, repeat
or flatten view makes the tree's combined ELEMENTS_PER_THREAD
capability exactly `ONE`, which is less than or equal to the combined
capability of the tree without that view. -/
theorem view_capability_downgrade (k : ViewKind) (t : ExprNode) :
    getCapabilityEPT (applyView k t) = ElementsPerThread.one ∧
    (getCapabilityEPT (applyView k t)).toNat ≤ (getCapabilityEPT t).toNat := by
  have h1 : getCapabilityEPT (applyView k t) = ElementsPerThread.one := by
    cases k <;> rfl
  exact ⟨h1, h1 ▸ ept_one_le (getCapabilityEPT t)⟩

/- ------------------------------------------------------------------ -/
/- Host executor (executors/host.h)                                   -/
/- ------------------------------------------------------------------ -/

/-- One element-access step of `HostExecutor::Exec`:
`idx = GetIdxFromAbs(op, i); apply(op, idx)`. -/
def applyAt (op : TensorOp α) (i : Nat) : α :=
  op.elem (GetIdxFromAbs op.sizes (i : Int))

/-- `HostExecutor::Exec` with one thread: the rank-0 branch invokes
`op()` once; otherwise a single loop over flat indices
`0 ≤ i < TotalSize(op)` applies the operator at `GetIdxFromAbs(op, i)`.
The result collects the evaluated values in visit order. -/
def hostExecSeq (op : TensorOp α) : List α :=
  if op.sizes.length = 0 then [op.elem []]
  else (List.range (TotalSize op.sizes).toNat).map (applyAt op)

/-- The flat-index ranges of the per-thread partition of the
`omp parallel for` loop: thread `t` handles a contiguous chunk of
`chunks[t]` indices (OpenMP leaves the exact split unspecified; any
contiguous partition is admitted). -/
def chunkIdx : Nat → List Nat → List (List Nat)
  | _, [] => []
  | off, c :: cs => ((List.range c).map (off + ·)) :: chunkIdx (off + c) cs

/-- `HostExecutor::Exec` with `params_.GetNumThreads() > 1`: the same
rank-0 branch, else each thread maps its chunk of flat indices through
the identical loop body; results in thread order. -/
def hostExecPar (op : TensorOp α) (chunks : List Nat) : List α :=
  if op.sizes.length = 0 then [op.elem []]
  else ((chunkIdx 0 chunks).map (List.map (applyAt op))).flatten

theorem chunkIdx_flatten : ∀ (cs : List Nat) (off : Nat),
    (chunkIdx off cs).flatten = (List.range cs.sum).map (off + ·)
  | [], off => by simp [chunkIdx]
  | c :: cs, off => by
      simp only [chunkIdx, List.flatten_cons, List.sum_cons, chunkIdx_flatten cs (off + c)]
      rw [List.range_add, List.map_append, List.map_map]
      congr 1
      apply List.map_congr_left
      intro x _
      simp [Function.comp]
      omega

/-- The list of coordinate tuples visited by one `Exec` call of rank >
0: the flat loop indices mapped through `GetIdxFromAbs`. -/
def visitedCoords (op : TensorOp α) : List (List Int) :=
  (List.range (TotalSize op.sizes).toNat).map
    (fun (i : Nat) => GetIdxFromAbs op.sizes (i : Int))

/-- C6: the host executor applied to the same node with thread count 1
and with any multi-thread partition of the flat index space produces
identical outputs; each call visits exactly the flat indices
`0..TotalSize`, hitting every in-range coordinate tuple exactly once;
a rank-0 node's zero-argument form is invoked exactly once. -/
theorem host_exec_thread_invariance (op : TensorOp α) (chunks : List Nat)
    (hsum : chunks.sum = (TotalSize op.sizes).toNat)
    (hnn : ∀ s ∈ op.sizes, 0 ≤ s) :
    hostExecPar op chunks = hostExecSeq op ∧
    (chunkIdx 0 chunks).flatten = List.range (TotalSize op.sizes).toNat ∧
    (visitedCoords op).Nodup ∧
    (∀ idx, InRange op.sizes idx → idx ∈ visitedCoords op) ∧
    (op.sizes.length = 0 → hostExecSeq op = [op.elem []]) := by
  have hjoin : (chunkIdx 0 chunks).flatten = List.range (TotalSize op.sizes).toNat := by
    rw [chunkIdx_flatten, hsum]
    simp
  refine ⟨?_, hjoin, ?_, ?_, fun h => by simp [hostExecSeq, h]⟩
  · by_cases h0 : op.sizes.length = 0
    · simp [hostExecPar, hostExecSeq, h0]
    · simp only [hostExecPar, hostExecSeq, if_neg h0]
      rw [← List.map_flatten, hjoin]
  · by_cases hall : ∀ s ∈ op.sizes, 0 < s
    · unfold visitedCoords
      apply List.Nodup.map_on ?_ (List.nodup_range _)
      intro x hx y hy hxy
      have hx' := List.mem_range.mp hx
      have hy' := List.mem_range.mp hy
      have hT : (0 : Int) < TotalSize op.sizes ∨ (TotalSize op.sizes).toNat = 0 := by
        rcases Nat.eq_zero_or_pos (TotalSize op.sizes).toNat with h | h
        · exact Or.inr h
        · exact Or.inl (by omega)
      rcases hT with hT | hT
      · have h1 := (absFromIdx_getIdxFromAbs hall (Int.natCast_nonneg x)
          (show (x : Int) < TotalSize op.sizes by omega)).1
        have h2 := (absFromIdx_getIdxFromAbs hall (Int.natCast_nonneg y)
          (show (y : Int) < TotalSize op.sizes by omega)).1
        rw [hxy] at h1
        omega
      · omega
    · have hz : (0 : Int) ∈ op.sizes := by
        push_neg at hall
        obtain ⟨s, hs, hsle⟩ := hall
        have := hnn s hs
        have : s = 0 := by omega
        exact this ▸ hs
      have hT0 : TotalSize op.sizes = 0 := List.prod_eq_zero hz
      unfold visitedCoords
      rw [hT0]
      simp
  · intro idx hin
    obtain ⟨hk0, hku⟩ := absFromIdx_bounds hin
    unfold visitedCoords
    rw [List.mem_map]
    refine ⟨(AbsFromIdx op.sizes idx).toNat, List.mem_range.mpr (by omega), ?_⟩
    rw [Int.toNat_of_nonneg hk0]
    exact getIdxFromAbs_absFromIdx hin

theorem host_exec_thread_invariance_witness :
    hostExecPar obsNode1 [1, 2] = hostExecSeq obsNode1 :=
  (host_exec_thread_invariance obsNode1 [1, 2] (by decide) (by decide)).1

/- ------------------------------------------------------------------ -/
/- StddOp lifecycle (operators/stdd.h)                                -/
/- ------------------------------------------------------------------ -/

/-- Modelled from the spec: the allocator interface of §6
(`allocate(byte_size, memory_space, executor) -> handle`, `free(handle)`;
the `matxAlloc`/`matxFree` implementations are not under `src/`).
`live` records the outstanding allocations as handle/shape pairs. -/
structure AllocState where
  next : Nat
  live : List (Nat × List Int)

/-- `AllocateTempTensor`: hands out a fresh handle for a buffer of the
given shape. -/
def allocBuf (shape : List Int) (s : AllocState) : Nat × AllocState :=
  (s.next, ⟨s.next + 1, (s.next, shape) :: s.live⟩)

/-- `matxFree(ptr)`: releases the allocation with the given handle
(`ptr == nullptr` is a no-op). -/
def freeBuf (h : Option Nat) (s : AllocState) : AllocState :=
  match h with
  | none => s
  | some p => ⟨s.next, s.live.eraseP (fun e => e.1 == p)⟩

/-- State of a `StddOp<OpA, ORank>` instance: the (permuted) input
operator, the `ddof_` offset, the `out_dims_` array recorded at
construction, and the mutable `ptr`/`tmp_out_` members. -/
structure StddInst (α : Type) where
  a : TensorOp α
  ddof : Int
  out_dims : List Int
  ptr : Option Nat
  tmp_out : List Int → Option α

/-- `StddOp::StddOp`: records `out_dims_[r] = a_.Size(r)` for
`r < ORank`; no allocation and no computation happens here
(`ptr = nullptr`, buffer uninitialised). -/
def stddMake (a : TensorOp α) (ddof : Int) (orank : Nat) : StddInst α :=
  ⟨a, ddof, (List.range orank).map (fun r => a.sizes.getD r 0), none, fun _ => none⟩

/-- `StddOp::PreRun`: `InnerPreRun` forwards to the input operator (a
no-op for a plain data leaf), then `AllocateTempTensor(tmp_out_, ...,
out_dims_, &ptr)` allocates the output-shaped buffer, then
`Exec(make_tuple(tmp_out_), ex)` invokes the external compute provider
(`stdd_impl`, modelled from the spec's compute-provider interface, §6)
to fill the entire buffer. -/
def stddPreRun (provider : TensorOp α → Int → List Int → α)
    (inst : StddInst α) (s : AllocState) : StddInst α × AllocState :=
  let hs := allocBuf inst.out_dims s
  ({ inst with
      ptr := some hs.1,
      tmp_out := fun idx => some (provider inst.a inst.ddof idx) },
   hs.2)

/-- `StddOp::operator()`: a plain read of `tmp_out_` at the given
coordinates. -/
def stddAccess (inst : StddInst α) (idx : List Int) : Option α :=
  inst.tmp_out idx

/-- `StddOp::PostRun`: forwards to the input operator (no-op for a
leaf), then `matxFree(ptr)`. -/
def stddPostRun (inst : StddInst α) (s : AllocState) : StddInst α × AllocState :=
  (inst, freeBuf inst.ptr s)

/-- One matched `PreRun`/`PostRun` cycle on the same node instance. -/
def stddCycle (provider : TensorOp α → Int → List Int → α)
    (p : StddInst α × AllocState) : StddInst α × AllocState :=
  stddPostRun (stddPreRun provider p.1 p.2).1 (stddPreRun provider p.1 p.2).2

theorem stddCycle_live (provider : TensorOp α → Int → List Int → α)
    (p : StddInst α × AllocState) :
    (stddCycle provider p).2.live = p.2.live := by
  simp [stddCycle, stddPostRun, stddPreRun, allocBuf, freeBuf,
    List.eraseP_cons_of_pos]

/-- C4: `PreRun` on a standard-deviation transform allocates one buffer
sized to the declared output shape (`out_dims_`, i.e. `a.Size(r)` per
output dimension) and fills it for the whole shape from the compute
provider, so that afterwards every element access is a read of that
buffer's entry at the same coordinates; the matching `PostRun` releases
exactly that allocation, and any number of matched Pre/PostRun cycles
returns the allocator to its initial state (no leak, no double free). -/
theorem stdd_lifecycle (a : TensorOp α) (ddof : Int) (orank : Nat)
    (provider : TensorOp α → Int → List Int → α) (s : AllocState) :
    (stddPreRun provider (stddMake a ddof orank) s).1.ptr = some s.next ∧
    (stddPreRun provider (stddMake a ddof orank) s).2.live
      = (s.next, (List.range orank).map (fun r => a.sizes.getD r 0)) :: s.live ∧
    (∀ idx, stddAccess (stddPreRun provider (stddMake a ddof orank) s).1 idx
      = some (provider a ddof idx)) ∧
    (stddPostRun (stddPreRun provider (stddMake a ddof orank) s).1
      (stddPreRun provider (stddMake a ddof orank) s).2).2.live = s.live ∧
    (∀ n : Nat,
      ((stddCycle provider)^[n] (stddMake a ddof orank, s)).2.live = s.live) := by
  refine ⟨rfl, rfl, fun idx => rfl, ?_, ?_⟩
  · simp [stddPostRun, stddPreRun, allocBuf, freeBuf, List.eraseP_cons_of_pos]
  · intro n
    induction n with
    | zero => rfl
    | succ n ih =>
        rw [Function.iterate_succ_apply', stddCycle_live]
        exact ih

/- ------------------------------------------------------------------ -/
/- ArgMinOp (operators/stdd.h, argmin portion)                        -/
/- ------------------------------------------------------------------ -/

/-- State of an `ArgMinOp<OpA, ORank>` instance: only the input
operator.  The class deletes its call operator
(`operator()(Is...) const = delete`), so the embedding carries no
element-access function for it at all. -/
structure ArgMinInst (α : Type) where
  a : TensorOp α

def argminMake (a : TensorOp α) : ArgMinInst α := ⟨a⟩

/-- `ArgMinOp::Size(dim)`: returns 0 unconditionally, for every
dimension argument. -/
def argminSize (_ : ArgMinInst α) (_ : Nat) : Int := 0

/-- `ArgMinOp::Exec`: statically requires an `mtie` with exactly two
bound outputs and calls `argmin_impl(out0, out1, a_, ex)`, which fills
the value output and the index output (the provider is modelled from
the spec's argument-extrema interface, §6). -/
def argminExec (valProvider : TensorOp α → List Int → α)
    (idxProvider : TensorOp α → List Int → Int) (inst : ArgMinInst α) :
    (List Int → Option α) × (List Int → Option Int) :=
  (fun idx => some (valProvider inst.a idx),
   fun idx => some (idxProvider inst.a idx))

/-- `ArgMinOp::PreRun`: only forwards to the input operator (a no-op
for a leaf); unlike the buffering transforms it allocates nothing, so
the allocator state is untouched. -/
def argminPreRun (_ : ArgMinInst α) (s : AllocState) : AllocState := s

/-- C10: the argmin node reports size 0 in every dimension, its
`PreRun` allocates no cache buffer, and evaluation happens only through
`Exec`, which binds exactly two outputs (value and index) and fills
both; the embedding carries no element-access function for the node,
mirroring the deleted call operator. -/
theorem argmin_no_cache (a : TensorOp α) (s : AllocState)
    (valProvider : TensorOp α → List Int → α)
    (idxProvider : TensorOp α → List Int → Int) :
    (∀ dim, argminSize (argminMake a) dim = 0) ∧
    argminPreRun (argminMake a) s = s ∧
    (∀ idx, (argminExec valProvider idxProvider (argminMake a)).1 idx
        = some (valProvider a idx) ∧
      (argminExec valProvider idxProvider (argminMake a)).2 idx
        = some (idxProvider a idx)) :=
  ⟨fun _ => rfl, rfl, fun _ => ⟨rfl, rfl⟩⟩

/- ------------------------------------------------------------------ -/
/- Interp1Op (interp operator sources): searchsorted and the          -/
/- nearest-neighbor method.  The 1-D instance is embedded: sample     -/
/- points x, sample values v, one scalar query; the batched variant   -/
/- only rewrites the last ("AXIS") coordinate, which is the index     -/
/- modelled here.  The floating-point domain type is modelled as ℚ.   -/
/- ------------------------------------------------------------------ -/

/-- The `while (idx_high - idx_low > 1)` loop of
`Interp1Op::searchsorted`: take the midpoint, return a degenerate
bracket on an exact match, else shrink the bracketing interval.  `fuel`
bounds the iteration count; the wrapper passes enough for the loop to
reach its exit condition. -/
def ssLoop (x : List ℚ) (q : ℚ) : Nat → Nat → Nat → Nat × Nat
  | lo, hi, 0 => (lo, hi)
  | lo, hi, fuel + 1 =>
      if hi - lo > 1 then
        if q = x.getD ((lo + hi) / 2) 0 then ((lo + hi) / 2, (lo + hi) / 2)
        else if q < x.getD ((lo + hi) / 2) 0 then ssLoop x q lo ((lo + hi) / 2) fuel
        else ssLoop x q ((lo + hi) / 2) hi fuel
      else (lo, hi)

/-- `Interp1Op::searchsorted`: the out-of-domain and exact-boundary
cases (with `n = x.Size` as the past-the-end sentinel index), then the
binary search between indices `0` and `n - 1`. -/
def searchsorted (x : List ℚ) (q : ℚ) : Nat × Nat :=
  if q < x.getD 0 0 then (x.length, 0)
  else if q = x.getD 0 0 then (0, 0)
  else if q > x.getD (x.length - 1) 0 then (x.length - 1, x.length)
  else if q = x.getD (x.length - 1) 0 then (x.length - 1, x.length - 1)
  else ssLoop x q 0 (x.length - 1) x.length

/-- `Interp1Op::operator()` with `InterpMethod::NEAREST`: `searchsorted`
then `interpolate_nearest`, which clamps outside the sample domain and
otherwise compares `x_query - x_low < x_high - x_query`, reading
`v_(idx_low)` when the query is strictly closer to the low sample and
`v_(idx_high)` otherwise. -/
def interpNearest (x v : List ℚ) (q : ℚ) : ℚ :=
  let lh := searchsorted x q
  if lh.1 = x.length then v.getD lh.2 0
  else if lh.2 = x.length then v.getD lh.1 0
  else if q - x.getD lh.1 0 < x.getD lh.2 0 - q then v.getD lh.1 0
  else v.getD lh.2 0

theorem sorted_getD_lt {x : List ℚ} (hsort : List.Pairwise (· < ·) x)
    {a b : Nat} (hab : a < b) (hb : b < x.length) :
    x.getD a 0 < x.getD b 0 := by
  rw [List.getD_eq_getElem _ _ (lt_trans hab hb), List.getD_eq_getElem _ _ hb]
  exact List.pairwise_iff_getElem.mp hsort a b (lt_trans hab hb) hb hab

theorem sorted_getD_le {x : List ℚ} (hsort : List.Pairwise (· < ·) x)
    {a b : Nat} (hab : a ≤ b) (hb : b < x.length) :
    x.getD a 0 ≤ x.getD b 0 := by
  rcases lt_or_eq_of_le hab with h | h
  · exact le_of_lt (sorted_getD_lt hsort h hb)
  · rw [h]

theorem ssLoop_bracket (x : List ℚ) (q : ℚ) :
    ∀ (fuel lo hi : Nat), lo < hi → hi < x.length →
      x.getD lo 0 < q → q < x.getD hi 0 →
      (∀ j, lo ≤ j → j ≤ hi → x.getD j 0 ≠ q) →
      hi - lo ≤ fuel →
      ∃ j, ssLoop x q lo hi fuel = (j, j + 1) ∧ lo ≤ j ∧ j + 1 ≤ hi ∧
        x.getD j 0 < q ∧ q < x.getD (j + 1) 0
  | 0, lo, hi, hlohi, _, _, _, _, hfuel => absurd hfuel (by omega)
  | fuel + 1, lo, hi, hlohi, hhi, hlow, hhigh, hnm, hfuel => by
      by_cases hgt : hi - lo > 1
      · have hmlo : lo < (lo + hi) / 2 := by omega
        have hmhi : (lo + hi) / 2 < hi := by omega
        have hne : ¬ q = x.getD ((lo + hi) / 2) 0 :=
          fun h => hnm _ (by omega) (by omega) h.symm
        rw [show ssLoop x q lo hi (fuel + 1)
            = if hi - lo > 1 then
                if q = x.getD ((lo + hi) / 2) 0 then ((lo + hi) / 2, (lo + hi) / 2)
                else if q < x.getD ((lo + hi) / 2) 0 then
                  ssLoop x q lo ((lo + hi) / 2) fuel
                else ssLoop x q ((lo + hi) / 2) hi fuel
              else (lo, hi) from rfl,
          if_pos hgt, if_neg hne]
        by_cases hlt : q < x.getD ((lo + hi) / 2) 0
        · rw [if_pos hlt]
          obtain ⟨j, hj⟩ := ssLoop_bracket x q fuel lo ((lo + hi) / 2) hmlo
            (by omega) hlow hlt
            (fun j h1 h2 => hnm j h1 (by omega)) (by omega)
          exact ⟨j, hj.1, hj.2.1, by omega, hj.2.2.2⟩
        · rw [if_neg hlt]
          have hmq : x.getD ((lo + hi) / 2) 0 < q :=
            lt_of_le_of_ne (le_of_not_lt hlt) (hnm _ (by omega) (by omega))
          obtain ⟨j, hj⟩ := ssLoop_bracket x q fuel ((lo + hi) / 2) hi hmhi
            hhi hmq hhigh
            (fun j h1 h2 => hnm j (by omega) h2) (by omega)
          exact ⟨j, hj.1, by omega, hj.2.2.1, hj.2.2.2⟩
      · have hhi1 : hi = lo + 1 := by omega
        refine ⟨lo, ?_, le_refl lo, by omega, hlow, hhi1 ▸ hhigh⟩
        rw [show ssLoop x q lo hi (fuel + 1)
            = if hi - lo > 1 then
                if q = x.getD ((lo + hi) / 2) 0 then ((lo + hi) / 2, (lo + hi) / 2)
                else if q < x.getD ((lo + hi) / 2) 0 then
                  ssLoop x q lo ((lo + hi) / 2) fuel
                else ssLoop x q ((lo + hi) / 2) hi fuel
              else (lo, hi) from rfl,
          if_neg hgt, hhi1]

theorem searchsorted_adjacent (x : List ℚ) (q : ℚ) (i : Nat)
    (hsort : List.Pairwise (· < ·) x) (hi1 : i + 1 < x.length)
    (hlow : x.getD i 0 < q) (hhigh : q < x.getD (i + 1) 0) :
    searchsorted x q = (i, i + 1) := by
  have hn2 : 2 ≤ x.length := by omega
  have hx0 : x.getD 0 0 < q :=
    lt_of_le_of_lt (sorted_getD_le hsort (Nat.zero_le i) (by omega)) hlow
  have hxn : q < x.getD (x.length - 1) 0 :=
    lt_of_lt_of_le hhigh (sorted_getD_le hsort (by omega) (by omega))
  have hnm : ∀ j, 0 ≤ j → j ≤ x.length - 1 → x.getD j 0 ≠ q := by
    intro j _ hj
    rcases le_or_lt j i with h | h
    · exact ne_of_lt (lt_of_le_of_lt (sorted_getD_le hsort h (by omega)) hlow)
    · exact ne_of_gt (lt_of_lt_of_le hhigh (sorted_getD_le hsort h (by omega)))
  obtain ⟨j, heq, hj0, hj1, hjlow, hjhigh⟩ := ssLoop_bracket x q x.length
    0 (x.length - 1) (by omega) (by omega) hx0 hxn hnm (by omega)
  have hij : j = i := by
    rcases lt_trichotomy j i with h | h | h
    · exact absurd hjhigh
        (not_lt.mpr (le_of_lt (lt_of_le_of_lt
          (sorted_getD_le hsort (by omega) (by omega)) hlow)))
    · exact h
    · exact absurd hjlow
        (not_lt.mpr (le_of_lt (lt_of_lt_of_le hhigh
          (sorted_getD_le hsort (by omega) (by omega)))))
  rw [searchsorted, if_neg (not_lt.mpr (le_of_lt hx0)),
    if_neg (ne_of_gt hx0), if_neg (not_lt.mpr (le_of_lt hxn)),
    if_neg (ne_of_lt hxn), heq, hij]

/-- C2 (amended): for a query point exactly halfway between two adjacent
sample points, nearest-neighbor interpolation returns the value at the
higher-indexed of the two samples: on the exact tie
`x_query - x_low < x_high - x_query` is false and
`interpolate_nearest` reads `v_(idx_high)`. -/
theorem interp_nearest_tie (x v : List ℚ) (q : ℚ) (i : Nat)
    (hsort : List.Pairwise (· < ·) x) (hi1 : i + 1 < x.length)
    (htie : q - x.getD i 0 = x.getD (i + 1) 0 - q) :
    interpNearest x v q = v.getD (i + 1) 0 := by
  have hadj : x.getD i 0 < x.getD (i + 1) 0 :=
    sorted_getD_lt hsort (Nat.lt_succ_self i) hi1
  have hlow : x.getD i 0 < q := by linarith
  have hhigh : q < x.getD (i + 1) 0 := by linarith
  have hs := searchsorted_adjacent x q i hsort hi1 hlow hhigh
  rw [interpNearest]
  rw [hs]
  have hne1 : ¬ i = x.length := by omega
  have hne2 : ¬ i + 1 = x.length := by omega
  simp only [if_neg hne1, if_neg hne2]
  rw [if_neg (by rw [htie]; exact lt_irrefl _)]

/-- C2 counterexample: samples `x = [0, 2]` with values `v = [10, 20]`
and the query `1`, exactly halfway between the two samples; the code
returns `20`, the value at the higher-indexed sample, not `10` as the
claim requires. -/
theorem interp_nearest_claim_cex :
    interpNearest [0, 2] [10, 20] 1 = 20 ∧ (20 : ℚ) ≠ 10 := by
  have hl : ssLoop [0, 2] 1 0 1 2 = (0, 1) := by
    rw [ssLoop]
    norm_num
  have hs : searchsorted [0, 2] 1 = (0, 1) := by
    rw [searchsorted]
    norm_num [List.getD]
    exact hl
  constructor
  · rw [interpNearest, hs]
    norm_num [List.getD]
  · norm_num

theorem interp_nearest_tie_witness :
    interpNearest [0, 2] [10, 20] 1 = 20 := by
  have h := interp_nearest_tie [0, 2] [10, 20] 1 0 (by decide) (by decide)
    (by norm_num [List.getD])
  simpa [List.getD] using h

end MatXSpec

